import Mathlib

/-!
Verification of the "project takeout" tool (src/takeout.py).

The development shallowly embeds the core of the program:

* the filesystem is an inductive tree `FSTree` of named directories and files
  (a file is an `Entry`: name plus content);
* `os.walk(root_dir, topdown=True)` with the in-place pruning of `dirnames`
  performed on lines 66/78 is `osWalk`; a yielded triple `(dirpath, dirnames,
  filenames)` is a `DirVisit` carrying the directory path relative to
  `root_dir` as a list of path segments (`[]` for `root_dir` itself);
* the `file_paths` dict (insertion-ordered, lines 63-73) is an association
  list built by `buildFileIndex`;
* the structure-guide writer (lines 75-85) is `guideLines`, producing the
  written lines in order; `os.path.relpath(p, root_dir)` for a directory `p`
  at relative segments `segs` is `relPathStr segs`;
* the takeout directory is a `Store`: an association list of file names to
  contents where `storeWrite` overwrites an existing name (the behaviour of
  `shutil.copy2` / `open(..., 'w')` onto an existing path), `storeRename`
  models POSIX `os.rename` (silently replacing an existing target);
* the copy loop (lines 87-97) is `copyFiles`, the `convert_to_txt` rename
  pass (lines 100-104) is `normalizeStore` (the `os.listdir` snapshot is the
  store's current name list), and `create_takeout` chains the passes in the
  source's order: guide written first, then copying, then normalization;
* the `.takeoutignore` loader (lines 30-40) is `get_ignored_patterns` over a
  `FileReadResult` describing what the filesystem/IO layer did; Python's
  `set` of patterns is modelled as a list used only through membership;
* the deferred-deletion scheduler (lines 18-27 and 108-115) is modelled by
  `scheduleNote` (the decision and the reported message) and
  `_delete_folder_after_delay` (the detached task's logging), with the float
  delay modelled as a rational and the outcome of `shutil.rmtree` passed in
  as an `Except` value.

String primitives of Python that the code uses (`str.strip`, `str.startswith`,
`str.endswith`, slicing `p[1:]`, `str.replace(os.sep, '_')` for the one-char
separator, `'    ' * level`, `str.count(os.sep)`) are modelled by executable
definitions over the string's character list.
-/

/-- A file: its base name and its content. -/
structure Entry where
  name : String
  content : String
deriving DecidableEq

/-- A directory tree: the directory's base name, its subdirectories and its
files.  The root of a run is the tree handed to `create_takeout`; its name is
`os.path.basename(root_dir)`. -/
inductive FSTree where
  | node (dname : String) (subdirs : List FSTree) (files : List Entry)

/-- Base name of a directory. -/
def FSTree.name : FSTree → String
  | .node n _ _ => n

/-- Subdirectories of a directory. -/
def FSTree.subdirs : FSTree → List FSTree
  | .node _ s _ => s

/-- Files of a directory. -/
def FSTree.files : FSTree → List Entry
  | .node _ _ f => f

/-- Python `p.startswith(q)` on strings, as a character-list prefix test. -/
def strStartsWith (s p : String) : Bool := p.data.isPrefixOf s.data

/-- Python `s.endswith(p)` on strings, as a character-list suffix test. -/
def strEndsWith (s p : String) : Bool := p.data.isSuffixOf s.data

/-- Python slicing `p[1:]`. -/
def strDrop1 (p : String) : String := String.mk (p.data.drop 1)

/-- Python `s.strip()`: drop whitespace from both ends (ASCII whitespace;
the exotic Unicode spaces Python additionally strips play no role here). -/
def trimChars (s : String) : String :=
  String.mk (((s.data.dropWhile Char.isWhitespace).reverse.dropWhile Char.isWhitespace).reverse)

/-- Python `s.replace(os.sep, '_')` for the single-character separator `/`:
each separator character becomes an underscore. -/
def replaceSep (s : String) : String :=
  String.mk (s.data.map (fun c => if c = '/' then '_' else c))

/-- True when a string contains no path separator (every real file or
directory base name satisfies this). -/
def noSlash (s : String) : Bool := !(s.data.contains '/')

/-- Python string comparison `a < b` (lexicographic on code points). -/
def charListLt : List Char → List Char → Bool
  | [], [] => false
  | [], _ :: _ => true
  | _ :: _, [] => false
  | a :: as, b :: bs => if a = b then charListLt as bs else decide (a.toNat < b.toNat)

/-- Insert into a sorted list, keeping earlier-inserted equal keys first. -/
def sortedInsert (a : String) : List String → List String
  | [] => [a]
  | b :: l => if charListLt b.data a.data then b :: sortedInsert a l else a :: b :: l

/-- Python `sorted` on a list of strings (ascending, lexicographic). -/
def sortNames (l : List String) : List String := l.foldr sortedInsert []

/-- Python `s * n` string repetition. -/
def strRepeat (s : String) : Nat → String
  | 0 => ""
  | n + 1 => s ++ strRepeat s n

/-- The condition of line 37 of the source on one raw line of
`.takeoutignore`: `line.strip() and not line.startswith('#')`.  Note the
`startswith` test is applied to the raw, untrimmed line. -/
def patternLineKept (line : String) : Bool :=
  !(trimChars line == "") && !(strStartsWith line "#")

/-- The set comprehension of line 37: the kept lines' trimmed texts.  The
Python `set` is modelled as a list used only through membership. -/
def parsePatterns (lines : List String) : List String :=
  (lines.filter patternLineKept).map trimChars

/-- What the filesystem and IO layer did when `get_ignored_patterns` looked
for `<root_dir>/.takeoutignore`: the file is absent, reading raised, or
reading produced the file's raw lines. -/
inductive FileReadResult where
  | absent
  | readError (msg : String)
  | ok (lines : List String)

/-- Lines 30-40 of the source: returns the pattern set together with the
lines printed.  An absent file yields the empty set silently; a read failure
is logged and also yields the empty set; in no case does the function
propagate a failure (its result type has no error case). -/
def get_ignored_patterns : FileReadResult → List String × List String
  | .absent => ([], [])
  | .readError e => ([], ["Error reading .takeoutignore file: " ++ e])
  | .ok lines => (parsePatterns lines, [])

/-- The pruning condition of lines 66 and 78: a subdirectory `d` survives
`dirnames[:] = [d for d in dirnames if f"{d}/" not in ignore_patterns and
d not in ['.git', '.takeout']]`. -/
def keepDir (P : List String) (d : String) : Bool :=
  !(P.contains (d ++ "/")) && !(d == ".git" || d == ".takeout")

/-- The file-exclusion condition of line 68: `filename in ignore_patterns or
any(filename.endswith(p[1:]) for p in ignore_patterns if p.startswith('*.'))`. -/
def isIgnoredFile (P : List String) (filename : String) : Bool :=
  P.contains filename ||
    P.any (fun p => strStartsWith p "*." && strEndsWith filename (strDrop1 p))

/-- One triple yielded by the walk: the directory's path relative to
`root_dir` (as segments, `[]` for the root), its base name and its files. -/
structure DirVisit where
  segs : List String
  dname : String
  files : List Entry
deriving DecidableEq

mutual
/-- `os.walk(·, topdown=True)` combined with the pruning of lines 66/78:
yields the current directory, then recursively the surviving
subdirectories in order. -/
def osWalk (P : List String) (segs : List String) : FSTree → List DirVisit
  | .node dname subdirs files =>
    ⟨segs, dname, files⟩ :: osWalkList P segs subdirs
/-- Walk the (already listed) subdirectories of a directory, descending
only into those kept by the pruning condition. -/
def osWalkList (P : List String) (segs : List String) : List FSTree → List DirVisit
  | [] => []
  | c :: cs =>
    (if keepDir P c.name then osWalk P (segs ++ [c.name]) c else []) ++
      osWalkList P segs cs
end

/-- A recorded source path of a file: the segments of its directory relative
to `root_dir`, and the file's content. -/
abbrev SrcPath := List String × String

/-- One `file_paths[filename].append(file_path)` step (with
`file_paths.setdefault`-like creation, lines 71-73): an insertion-ordered
dict as an association list. -/
def indexAdd (idx : List (String × List SrcPath)) (key : String) (v : SrcPath) :
    List (String × List SrcPath) :=
  match idx with
  | [] => [(key, [v])]
  | g :: gs => if g.1 = key then (g.1, g.2 ++ [v]) :: gs else g :: indexAdd gs key v

/-- Lines 65-73: the first walk, building `file_paths`. -/
def buildFileIndex (P : List String) (t : FSTree) : List (String × List SrcPath) :=
  (osWalk P [] t).foldl
    (fun idx v =>
      v.files.foldl
        (fun idx2 e =>
          if isIgnoredFile P e.name then idx2
          else indexAdd idx2 e.name (v.segs, e.content))
        idx)
    []

/-- `os.path.relpath(p, root_dir)` for a directory at relative segments
`segs`: `"."` for the root itself, else the segments joined by `/`. -/
def relPathStr : List String → String
  | [] => "."
  | [s] => s
  | s :: rest => s ++ "/" ++ relPathStr rest

/-- Python `s.count(os.sep)`: occurrences of the separator character. -/
def countSep (s : String) : Nat := s.data.count '/'

/-- Line 79: `0 if os.path.relpath(root, root_dir) == '.' else
os.path.relpath(root, root_dir).count(os.sep) + 1`. -/
def dirLevel (segs : List String) : Nat :=
  if relPathStr segs = "." then 0 else countSep (relPathStr segs) + 1

/-- Lines 80/82: `'    ' * level`. -/
def indentStr (level : Nat) : String := strRepeat "    " level

/-- The file filter of line 84: `file not in ignore_patterns and not
any(file.endswith(p[1:]) for p in ignore_patterns if p.startswith('*.'))`. -/
def guideKeep (P : List String) (file : String) : Bool :=
  !(P.contains file) &&
    !(P.any (fun p => strStartsWith p "*." && strEndsWith file (strDrop1 p)))

/-- Lines 83-84: the file names of one directory that get a line in the
guide, in the order written: `sorted(files)` filtered by `guideKeep`. -/
def guideSurviving (P : List String) (files : List Entry) : List String :=
  (sortNames (files.map Entry.name)).filter (guideKeep P)

/-- Lines 81-85: the lines the guide writer emits for one visited
directory: the directory line, then one line per surviving file. -/
def guideDirLines (P : List String) (v : DirVisit) : List String :=
  (indentStr (dirLevel v.segs) ++ v.dname ++ "/") ::
    (guideSurviving P v.files).map (fun file => indentStr (dirLevel v.segs + 1) ++ file)

/-- Lines 75-85: every line written to `structure_guide.txt`, in order:
the title line `Project Structure for: <basename(root_dir)>`, the blank
line from the `\n\n`, then the per-directory blocks of the second walk. -/
def guideLines (P : List String) (t : FSTree) : List String :=
  ("Project Structure for: " ++ t.name) :: "" ::
    (osWalk P [] t).flatMap (guideDirLines P)

/-- Join lines into the file content actually written (each line is written
with a trailing newline). -/
def unlines (ls : List String) : String := String.join (ls.map (· ++ "\n"))

/-- The takeout directory's contents: file names to contents. -/
abbrev Store := List (String × String)

/-- Writing a file into the directory: overwrites an existing name (the
behaviour of `shutil.copy2` and of `open(..., 'w')` onto an existing path),
otherwise the new name appears after the existing ones. -/
def storeWrite (st : Store) (nm c : String) : Store :=
  match st with
  | [] => [(nm, c)]
  | e :: es => if e.1 = nm then (nm, c) :: es else e :: storeWrite es nm c

/-- Looking a name up in the directory. -/
def storeLookup (st : Store) (nm : String) : Option String :=
  match st with
  | [] => none
  | e :: es => if e.1 = nm then some e.2 else storeLookup es nm

/-- Removing a name from the directory (names are unique in every store a
run produces). -/
def storeErase (st : Store) (nm : String) : Store :=
  match st with
  | [] => []
  | e :: es => if e.1 = nm then es else e :: storeErase es nm

/-- POSIX `os.rename(old, new)` inside one directory: silently replaces an
existing `new`; nothing happens if `old` is absent. -/
def storeRename (st : Store) (o n : String) : Store :=
  match storeLookup st o with
  | none => st
  | some c => storeWrite (storeErase st o) n c

/-- Lines 94-95: `os.path.join(relative_dir, filename).replace(os.sep, '_')`
where `relative_dir = os.path.relpath(os.path.dirname(path), root_dir)`. -/
def uniqueName (segs : List String) (filename : String) : String :=
  replaceSep (relPathStr segs ++ "/" ++ filename)

/-- One iteration of the copy loop of lines 88-97 for one `file_paths`
group, threading the takeout directory and `copied_files_count`. -/
def copyStep (acc : Store × Nat) (g : String × List SrcPath) : Store × Nat :=
  match g.2 with
  | [p] => (storeWrite acc.1 g.1 p.2, acc.2 + 1)
  | ps => ps.foldl (fun acc2 p => (storeWrite acc2.1 (uniqueName p.1 g.1) p.2, acc2.2 + 1)) acc

/-- Lines 87-97: the whole copy loop over `file_paths`. -/
def copyFiles (file_paths : List (String × List SrcPath)) (st : Store) : Store × Nat :=
  file_paths.foldl copyStep (st, 0)

/-- The body of the loop of lines 102-104 for one `os.listdir` snapshot
name. -/
def normalizeStep (acc : Store) (item_name : String) : Store :=
  if item_name = "structure_guide.txt" then acc
  else storeRename acc item_name (item_name ++ ".txt")

/-- The rename loop over a snapshot of names. -/
def normFold (names : List String) (st : Store) : Store := names.foldl normalizeStep st

/-- Lines 100-104: the `convert_to_txt` pass, over the `os.listdir`
snapshot taken before any rename. -/
def normalizeStore (st : Store) : Store := normFold (st.map Prod.fst) st

/-- Lines 52-104 of `create_takeout`, for an already loaded pattern set
`P` (line 59) and the takeout directory's initial contents `st0` (`[]`
when `empty_before` removed it, lines 53-57): the guide is written first
(lines 75-85), then the copy loop runs (lines 87-97), then the optional
`convert_to_txt` pass (lines 100-104).  Returns the final directory
contents and `copied_files_count`. -/
def create_takeout (P : List String) (t : FSTree) (convert_to_txt : Bool)
    (st0 : Store) : Store × Nat :=
  let st1 := storeWrite st0 "structure_guide.txt" (unlines (guideLines P t))
  let r := copyFiles (buildFileIndex P t) st1
  ((if convert_to_txt then normalizeStore r.1 else r.1), r.2)

/-- Lines 106-115: the success message and whether a deletion task is
started.  `delete_timer` (a Python float) is modelled as a rational. -/
def scheduleNote (takeout_dir : String) (delete_timer : ℚ) : String × Bool :=
  let success_message := "Project takeout created successfully in:\n" ++ takeout_dir
  if delete_timer > 0 then
    (success_message ++
      "\n\nNOTE: This folder will be automatically deleted in " ++
        toString delete_timer ++ " seconds.", true)
  else
    (success_message, false)

/-- Lines 18-27: the detached deletion task after its sleep, given whether
the path still exists and the outcome of `shutil.rmtree`.  The result is
the list of lines printed: the task never propagates an error (its result
type has no error case; the `except` clause only prints). -/
def _delete_folder_after_delay (path : String) (delay : ℚ) (pathExists : Bool)
    (rmtree : Except String Unit) : List String :=
  let schedLine := "Scheduled deletion of '" ++ path ++ "' in " ++ toString delay ++ " seconds."
  if pathExists then
    match rmtree with
    | .ok _ => [schedLine, "Automatically deleted '" ++ path ++ "'."]
    | .error e => [schedLine, "Error during scheduled deletion of '" ++ path ++ "': " ++ e]
  else [schedLine]

/-- A plausible directory base name: no path separator and not the
current-directory marker (every real directory entry name satisfies this). -/
def validDirName (nm : String) : Bool := noSlash nm && !(nm == ".")

mutual
/-- All directory base names strictly below this directory are plausible. -/
def dirsValid : FSTree → Bool
  | .node _ subdirs _ => dirsValidList subdirs
/-- List form of `dirsValid`. -/
def dirsValidList : List FSTree → Bool
  | [] => true
  | c :: cs => (validDirName c.name && dirsValid c) && dirsValidList cs
end

/-- Spec-side rendering of an indent: exactly four spaces per depth level. -/
def fourSpaces (depth : Nat) : String := String.mk (List.replicate (4 * depth) ' ')

/-- Spec-side description of the structure guide (section 4.3 of the spec):
a title line naming the root's base name, a blank line, then for every
visited directory a line `<indent><dirname>/` indented four spaces per
depth level (root depth 0, a directory's depth being the length of its
relative path), followed by one line per surviving file, sorted, indented
one level deeper. -/
def guideLinesSpec (P : List String) (t : FSTree) : List String :=
  ("Project Structure for: " ++ t.name) :: "" ::
    (osWalk P [] t).flatMap (fun v =>
      (fourSpaces v.segs.length ++ v.dname ++ "/") ::
        (guideSurviving P v.files).map (fun file => fourSpaces (v.segs.length + 1) ++ file))

/-- The write operations one `file_paths` group causes, in order (spec
section 4.4): a single-source group is copied under its base name, a
collision group under the synthesized unique names. -/
def copyWritesOf (g : String × List SrcPath) : List (String × String) :=
  match g.2 with
  | [p] => [(g.1, p.2)]
  | ps => ps.map (fun p => (uniqueName p.1 g.1, p.2))

/-! ### Basic lemmas about the string model -/

theorem strCancelRight (a b t : String) (h : a ++ t = b ++ t) : a = b := by
  cases a with
  | mk da =>
    cases b with
    | mk db =>
      have h2 : da ++ t.data = db ++ t.data := congrArg String.data h
      have h3 := List.append_cancel_right h2
      rw [h3]

theorem replaceSep_append (a b : String) :
    replaceSep (a ++ b) = replaceSep a ++ replaceSep b := by
  simp [replaceSep]
  rfl

theorem replaceSep_noSlash (s : String) (h : noSlash s = true) : replaceSep s = s := by
  have h2 : ∀ c ∈ s.data, c ≠ '/' := by
    intro c hc hcEq
    subst hcEq
    simp [noSlash] at h
    exact h hc
  have h3 : s.data.map (fun c => if c = '/' then '_' else c) = s.data := by
    conv_rhs => rw [← List.map_id s.data]
    exact List.map_congr_left fun c hc => by simp [h2 c hc]
  show String.mk (s.data.map _) = s
  rw [h3]

theorem strRepeat_spaces (n : Nat) : strRepeat "    " n = String.mk (List.replicate (4 * n) ' ') := by
  induction n with
  | zero => rfl
  | succ k ih =>
    show "    " ++ strRepeat "    " k = _
    rw [ih]
    have h4 : 4 * (k + 1) = 4 + 4 * k := by ring
    rw [h4, List.replicate_add]
    rfl

/-! ### A structural induction principle for the nested tree type -/

theorem FSTree.myInduction (motive : FSTree → Prop)
    (h : ∀ dname subdirs files, (∀ c ∈ subdirs, motive c) →
      motive (FSTree.node dname subdirs files)) :
    ∀ t, motive t
  | .node dname subdirs files =>
    h dname subdirs files (fun c _ => FSTree.myInduction motive h c)
decreasing_by
  calc sizeOf c < sizeOf subdirs := List.sizeOf_lt_of_mem (by assumption)
    _ < sizeOf (FSTree.node dname subdirs files) := by simp; omega

/-! ### Lemmas about the pruned walk -/

theorem keepDir_spec (P : List String) (d : String) (h : keepDir P d = true) :
    d ≠ ".git" ∧ d ≠ ".takeout" := by
  simp [keepDir] at h
  exact ⟨h.2.1, h.2.2⟩

theorem osWalkList_mem_segs (P : List String) (l : List FSTree) (pre : List String)
    (v : DirVisit)
    (ih : ∀ c ∈ l, ∀ (pre2 : List String) (v2 : DirVisit), v2 ∈ osWalk P pre2 c →
      ∃ ext, v2.segs = pre2 ++ ext ∧ ∀ s ∈ ext, keepDir P s = true)
    (hv : v ∈ osWalkList P pre l) :
    ∃ ext, v.segs = pre ++ ext ∧ ∀ s ∈ ext, keepDir P s = true := by
  induction l with
  | nil => simp [osWalkList] at hv
  | cons c cs ihl =>
    rw [osWalkList] at hv
    rcases List.mem_append.mp hv with h1 | h2
    · by_cases hk : keepDir P c.name = true
      · rw [if_pos hk] at h1
        obtain ⟨ext, hseg, hall⟩ := ih c (by simp) (pre ++ [c.name]) v h1
        refine ⟨c.name :: ext, by simpa using hseg, ?_⟩
        intro s hs
        rcases List.mem_cons.mp hs with rfl | hs2
        · exact hk
        · exact hall s hs2
      · rw [if_neg hk] at h1
        simp at h1
    · exact ihl (fun c2 hc2 => ih c2 (by simp [hc2])) h2

theorem osWalk_mem_segs (P : List String) (t : FSTree) :
    ∀ (pre : List String) (v : DirVisit), v ∈ osWalk P pre t →
      ∃ ext, v.segs = pre ++ ext ∧ ∀ s ∈ ext, keepDir P s = true := by
  induction t using FSTree.myInduction with
  | h dname subdirs files ih =>
    intro pre v hv
    rw [osWalk] at hv
    rcases List.mem_cons.mp hv with h1 | h2
    · exact ⟨[], by simp [h1], by simp⟩
    · exact osWalkList_mem_segs P subdirs pre v ih h2

/-! ### Lemmas about the file index -/

theorem indexAdd_keys (idx : List (String × List SrcPath)) (key : String) (v : SrcPath) :
    (indexAdd idx key v).map Prod.fst =
      if key ∈ idx.map Prod.fst then idx.map Prod.fst else idx.map Prod.fst ++ [key] := by
  induction idx with
  | nil => simp [indexAdd]
  | cons g gs ih =>
    by_cases hg : g.1 = key
    · simp [indexAdd, hg]
    · simp only [indexAdd, if_neg hg, List.map_cons, ih]
      by_cases hk : key ∈ gs.map Prod.fst
      · simp [hk, Ne.symm hg]
      · simp [hk, Ne.symm hg]

theorem indexAdd_keys_nodup (idx : List (String × List SrcPath)) (key : String) (v : SrcPath)
    (h : (idx.map Prod.fst).Nodup) : ((indexAdd idx key v).map Prod.fst).Nodup := by
  rw [indexAdd_keys]
  by_cases hk : key ∈ idx.map Prod.fst
  · simpa [hk] using h
  · rw [if_neg hk]
    have hd : (idx.map Prod.fst).Disjoint [key] := by
      intro a ha hb
      simp at hb
      subst hb
      exact hk ha
    exact (List.nodup_append).mpr ⟨h, List.nodup_singleton key, hd⟩

theorem indexAdd_mem_key (idx : List (String × List SrcPath)) (key : String) (v : SrcPath)
    (g : String × List SrcPath) (hg : g ∈ indexAdd idx key v) :
    g.1 = key ∨ ∃ g0 ∈ idx, g.1 = g0.1 := by
  induction idx with
  | nil =>
    simp [indexAdd] at hg
    simp [hg]
  | cons g1 gs ih =>
    by_cases h1 : g1.1 = key
    · rw [indexAdd, if_pos h1] at hg
      rcases List.mem_cons.mp hg with rfl | h2
      · exact Or.inl h1
      · exact Or.inr ⟨g, List.mem_cons_of_mem _ h2, rfl⟩
    · rw [indexAdd, if_neg h1] at hg
      rcases List.mem_cons.mp hg with rfl | h2
      · exact Or.inr ⟨g, by simp, rfl⟩
      · rcases ih h2 with h3 | ⟨g0, hg0, h4⟩
        · exact Or.inl h3
        · exact Or.inr ⟨g0, List.mem_cons_of_mem _ hg0, h4⟩

theorem indexAdd_mem_path (idx : List (String × List SrcPath)) (key : String) (v : SrcPath)
    (g : String × List SrcPath) (hg : g ∈ indexAdd idx key v) (p : SrcPath) (hp : p ∈ g.2) :
    (∃ g0 ∈ idx, p ∈ g0.2) ∨ p = v := by
  induction idx with
  | nil =>
    simp [indexAdd] at hg
    rw [hg] at hp
    simp at hp
    exact Or.inr hp
  | cons g1 gs ih =>
    by_cases h1 : g1.1 = key
    · rw [indexAdd, if_pos h1] at hg
      rcases List.mem_cons.mp hg with rfl | h2
      · simp only at hp
        rcases List.mem_append.mp hp with h3 | h3
        · exact Or.inl ⟨g1, by simp, h3⟩
        · exact Or.inr (by simpa using h3)
      · exact Or.inl ⟨g, List.mem_cons_of_mem _ h2, hp⟩
    · rw [indexAdd, if_neg h1] at hg
      rcases List.mem_cons.mp hg with rfl | h2
      · exact Or.inl ⟨g, by simp, hp⟩
      · rcases ih h2 with ⟨g0, hg0, h3⟩ | h3
        · exact Or.inl ⟨g0, List.mem_cons_of_mem _ hg0, h3⟩
        · exact Or.inr h3

/-- The inner loop over one visit's files (lines 67-73). -/
def filesFold (P : List String) (segs : List String) (files : List Entry)
    (idx : List (String × List SrcPath)) : List (String × List SrcPath) :=
  files.foldl
    (fun idx2 e =>
      if isIgnoredFile P e.name then idx2
      else indexAdd idx2 e.name (segs, e.content))
    idx

theorem buildFileIndex_eq_fold (P : List String) (t : FSTree) :
    buildFileIndex P t =
      (osWalk P [] t).foldl (fun idx v => filesFold P v.segs v.files idx) [] := rfl

theorem filesFold_cons (P : List String) (segs : List String) (e : Entry) (es : List Entry)
    (idx : List (String × List SrcPath)) :
    filesFold P segs (e :: es) idx =
      filesFold P segs es
        (if isIgnoredFile P e.name then idx else indexAdd idx e.name (segs, e.content)) := by
  by_cases he : isIgnoredFile P e.name = true <;> simp [filesFold, he]

theorem filesFold_keys_nodup (P : List String) (segs : List String) (files : List Entry)
    (idx : List (String × List SrcPath)) (h : (idx.map Prod.fst).Nodup) :
    ((filesFold P segs files idx).map Prod.fst).Nodup := by
  induction files generalizing idx with
  | nil => exact h
  | cons e es ih =>
    rw [filesFold_cons]
    by_cases he : isIgnoredFile P e.name = true
    · rw [if_pos he]
      exact ih idx h
    · rw [if_neg he]
      exact ih _ (indexAdd_keys_nodup idx e.name _ h)

theorem buildFileIndex_keys_nodup (P : List String) (t : FSTree) :
    ((buildFileIndex P t).map Prod.fst).Nodup := by
  rw [buildFileIndex_eq_fold]
  generalize osWalk P [] t = L
  have main : ∀ (L : List DirVisit) (idx : List (String × List SrcPath)),
      (idx.map Prod.fst).Nodup →
      ((L.foldl (fun idx v => filesFold P v.segs v.files idx) idx).map Prod.fst).Nodup := by
    intro L
    induction L with
    | nil => intro idx h; exact h
    | cons v vs ih =>
      intro idx h
      exact ih _ (filesFold_keys_nodup P v.segs v.files idx h)
  exact main L [] (by simp)

theorem filesFold_path (P : List String) (segs : List String) (files : List Entry) :
    ∀ (idx : List (String × List SrcPath)) (g : String × List SrcPath) (p : SrcPath),
      g ∈ filesFold P segs files idx → p ∈ g.2 →
      (∃ g0 ∈ idx, p ∈ g0.2) ∨ p.1 = segs := by
  induction files with
  | nil => intro idx g p hg hp; exact Or.inl ⟨g, hg, hp⟩
  | cons e es ih =>
    intro idx g p hg hp
    rw [filesFold_cons] at hg
    by_cases he : isIgnoredFile P e.name = true
    · rw [if_pos he] at hg
      exact ih idx g p hg hp
    · rw [if_neg he] at hg
      rcases ih _ g p hg hp with ⟨g0, hg0, hp0⟩ | h2
      · rcases indexAdd_mem_path idx e.name _ g0 hg0 p hp0 with h3 | h3
        · exact Or.inl h3
        · exact Or.inr (by rw [h3])
      · exact Or.inr h2

theorem walkFold_path (P : List String) :
    ∀ (L : List DirVisit) (idx : List (String × List SrcPath)) (g : String × List SrcPath)
      (p : SrcPath),
      g ∈ L.foldl (fun idx v => filesFold P v.segs v.files idx) idx → p ∈ g.2 →
      (∃ g0 ∈ idx, p ∈ g0.2) ∨ ∃ v ∈ L, p.1 = v.segs := by
  intro L
  induction L with
  | nil => intro idx g p hg hp; exact Or.inl ⟨g, hg, hp⟩
  | cons v vs ih =>
    intro idx g p hg hp
    rcases ih _ g p hg hp with ⟨g0, hg0, hp0⟩ | ⟨v2, hv2, hs⟩
    · rcases filesFold_path P v.segs v.files idx g0 p hg0 hp0 with h3 | h3
      · exact Or.inl h3
      · exact Or.inr ⟨v, by simp, h3⟩
    · exact Or.inr ⟨v2, List.mem_cons_of_mem _ hv2, hs⟩

theorem buildFileIndex_path (P : List String) (t : FSTree) (g : String × List SrcPath)
    (p : SrcPath) (hg : g ∈ buildFileIndex P t) (hp : p ∈ g.2) :
    ∃ v ∈ osWalk P [] t, p.1 = v.segs := by
  rw [buildFileIndex_eq_fold] at hg
  rcases walkFold_path P (osWalk P [] t) [] g p hg hp with ⟨g0, hg0, _⟩ | h2
  · simp at hg0
  · exact h2

theorem filesFold_key (P : List String) (segs : List String) (files : List Entry) :
    ∀ (idx : List (String × List SrcPath)) (g : String × List SrcPath),
      g ∈ filesFold P segs files idx →
      (∃ g0 ∈ idx, g.1 = g0.1) ∨ ∃ e ∈ files, g.1 = e.name ∧ isIgnoredFile P e.name = false := by
  induction files with
  | nil => intro idx g hg; exact Or.inl ⟨g, hg, rfl⟩
  | cons e es ih =>
    intro idx g hg
    rw [filesFold_cons] at hg
    by_cases he : isIgnoredFile P e.name = true
    · rw [if_pos he] at hg
      rcases ih idx g hg with h1 | ⟨e2, he2, h3⟩
      · exact Or.inl h1
      · exact Or.inr ⟨e2, List.mem_cons_of_mem _ he2, h3⟩
    · rw [if_neg he] at hg
      rcases ih _ g hg with ⟨g0, hg0, hk⟩ | ⟨e2, he2, h3⟩
      · rcases indexAdd_mem_key idx e.name _ g0 hg0 with h3 | ⟨g1, hg1, h4⟩
        · exact Or.inr ⟨e, by simp, hk.trans h3, by simpa using he⟩
        · exact Or.inl ⟨g1, hg1, hk.trans h4⟩
      · exact Or.inr ⟨e2, List.mem_cons_of_mem _ he2, h3⟩

theorem buildFileIndex_key (P : List String) (t : FSTree) (g : String × List SrcPath)
    (hg : g ∈ buildFileIndex P t) : isIgnoredFile P g.1 = false := by
  rw [buildFileIndex_eq_fold] at hg
  have main : ∀ (L : List DirVisit) (idx : List (String × List SrcPath)),
      (∀ g0 ∈ idx, isIgnoredFile P g0.1 = false) →
      ∀ g2 ∈ L.foldl (fun idx v => filesFold P v.segs v.files idx) idx,
        isIgnoredFile P g2.1 = false := by
    intro L
    induction L with
    | nil => intro idx h g2 hg2; exact h g2 hg2
    | cons v vs ih =>
      intro idx h g2 hg2
      refine ih _ ?_ g2 hg2
      intro g3 hg3
      rcases filesFold_key P v.segs v.files idx g3 hg3 with ⟨g0, hg0, hk⟩ | ⟨e, _, hk, hni⟩
      · rw [hk]; exact h g0 hg0
      · rw [hk]; exact hni
  exact main (osWalk P [] t) [] (by simp) g hg

/-! ### Lemmas about the takeout directory model -/

theorem storeLookup_write_self (st : Store) (nm c : String) :
    storeLookup (storeWrite st nm c) nm = some c := by
  induction st with
  | nil => simp [storeWrite, storeLookup]
  | cons e es ih =>
    by_cases he : e.1 = nm
    · simp [storeWrite, he, storeLookup]
    · simp [storeWrite, he, storeLookup, ih]

theorem storeLookup_write_ne (st : Store) (nm c k : String) (h : k ≠ nm) :
    storeLookup (storeWrite st nm c) k = storeLookup st k := by
  induction st with
  | nil => simp [storeWrite, storeLookup, Ne.symm h]
  | cons e es ih =>
    by_cases he : e.1 = nm
    · rw [storeWrite, if_pos he]
      simp only [storeLookup]
      rw [if_neg (show ¬ nm = k from fun hh => h hh.symm),
        if_neg (show ¬ e.1 = k from by rw [he]; exact fun hh => h hh.symm)]
    · rw [storeWrite, if_neg he]
      simp only [storeLookup]
      by_cases hk : e.1 = k
      · rw [if_pos hk, if_pos hk]
      · rw [if_neg hk, if_neg hk]
        exact ih

theorem storeLookup_erase_ne (st : Store) (nm k : String) (h : k ≠ nm) :
    storeLookup (storeErase st nm) k = storeLookup st k := by
  induction st with
  | nil => simp [storeErase]
  | cons e es ih =>
    by_cases he : e.1 = nm
    · rw [storeErase, if_pos he]
      simp only [storeLookup]
      rw [if_neg (show ¬ e.1 = k from by rw [he]; exact fun hh => h hh.symm)]
    · rw [storeErase, if_neg he]
      simp only [storeLookup]
      by_cases hk : e.1 = k
      · rw [if_pos hk, if_pos hk]
      · rw [if_neg hk, if_neg hk]
        exact ih

theorem storeLookup_rename_ne (st : Store) (o n k : String) (ho : k ≠ o) (hn : k ≠ n) :
    storeLookup (storeRename st o n) k = storeLookup st k := by
  rw [storeRename]
  cases hc : storeLookup st o with
  | none => rfl
  | some c => rw [storeLookup_write_ne _ _ _ _ hn, storeLookup_erase_ne _ _ _ ho]

theorem storeWrite_notMem (st : Store) (nm c : String) (h : nm ∉ st.map Prod.fst) :
    storeWrite st nm c = st ++ [(nm, c)] := by
  induction st with
  | nil => rfl
  | cons e es ih =>
    rw [List.map_cons] at h
    have h1 : ¬ e.1 = nm := fun hh => h (by rw [hh]; exact List.mem_cons_self _ _)
    have h2 : nm ∉ es.map Prod.fst := fun hh => h (List.mem_cons_of_mem _ hh)
    rw [storeWrite, if_neg h1, ih h2, List.cons_append]

theorem storeErase_keys (st : Store) (nm : String) :
    (storeErase st nm).map Prod.fst = (st.map Prod.fst).erase nm := by
  induction st with
  | nil => rfl
  | cons e es ih =>
    by_cases he : e.1 = nm
    · simp [storeErase, he, List.erase_cons_head]
    · simp [storeErase, he, List.erase_cons_tail, ih]

theorem storeWrite_keys_mem (st : Store) (nm c k : String)
    (h : k ∈ (storeWrite st nm c).map Prod.fst) : k = nm ∨ k ∈ st.map Prod.fst := by
  induction st with
  | nil =>
    simp [storeWrite] at h
    exact Or.inl h
  | cons e es ih =>
    by_cases he : e.1 = nm
    · rw [storeWrite, if_pos he] at h
      simp at h
      rcases h with h | h
      · exact Or.inl h
      · exact Or.inr (by simp [h])
    · rw [storeWrite, if_neg he] at h
      simp at h
      rcases h with h | h
      · exact Or.inr (by simp [h])
      · rcases ih (by simpa using h) with h2 | h2
        · exact Or.inl h2
        · exact Or.inr (by simp [h2])

theorem storeLookup_append_ne (st : Store) (nm c k : String) (h : k ≠ nm) :
    storeLookup (st ++ [(nm, c)]) k = storeLookup st k := by
  induction st with
  | nil => simp [storeLookup, Ne.symm h]
  | cons e es ih =>
    by_cases he : e.1 = k
    · simp [storeLookup, he]
    · simp [storeLookup, he, ih]

/-! ### The copy loop as a sequence of writes -/

/-- Apply a sequence of writes to the directory, in order. -/
def applyWrites (W : List (String × String)) (st : Store) : Store :=
  W.foldl (fun s w => storeWrite s w.1 w.2) st

theorem copyStep_eq_writes (acc : Store × Nat) (g : String × List SrcPath) :
    copyStep acc g = (applyWrites (copyWritesOf g) acc.1, acc.2 + (copyWritesOf g).length) := by
  have inner : ∀ (k : String) (ps : List SrcPath) (st : Store) (nn : Nat),
      ps.foldl (fun acc2 p => (storeWrite acc2.1 (uniqueName p.1 k) p.2, acc2.2 + 1)) (st, nn) =
        (applyWrites (ps.map (fun p => (uniqueName p.1 k, p.2))) st, nn + ps.length) := by
    intro k ps
    induction ps with
    | nil => intro st nn; simp [applyWrites]
    | cons p ps ih =>
      intro st nn
      rw [List.foldl_cons, ih]
      simp [applyWrites]
      omega
  rcases g with ⟨k, ps⟩
  match ps with
  | [] => simp [copyStep, copyWritesOf, applyWrites]
  | [p] => simp [copyStep, copyWritesOf, applyWrites]
  | p1 :: p2 :: ps =>
    show (p1 :: p2 :: ps).foldl _ acc = _
    rw [show acc = (acc.1, acc.2) from rfl, inner k (p1 :: p2 :: ps) acc.1 acc.2]
    simp [copyWritesOf]

theorem copyFiles_eq_writes (idx : List (String × List SrcPath)) (st : Store) :
    copyFiles idx st =
      (applyWrites (idx.flatMap copyWritesOf) st, (idx.flatMap copyWritesOf).length) := by
  have main : ∀ (idx : List (String × List SrcPath)) (st : Store) (nn : Nat),
      idx.foldl copyStep (st, nn) =
        (applyWrites (idx.flatMap copyWritesOf) st, nn + (idx.flatMap copyWritesOf).length) := by
    intro idx
    induction idx with
    | nil => intro st nn; simp [applyWrites]
    | cons g gs ih =>
      intro st nn
      rw [List.foldl_cons, copyStep_eq_writes, ih]
      simp [applyWrites, List.foldl_append]
      omega
  rw [copyFiles, main idx st 0]
  simp

theorem applyWrites_lookup_ne (W : List (String × String)) (st : Store) (k : String)
    (h : ∀ w ∈ W, w.1 ≠ k) : storeLookup (applyWrites W st) k = storeLookup st k := by
  induction W generalizing st with
  | nil => rfl
  | cons w ws ih =>
    rw [applyWrites, List.foldl_cons]
    rw [show (ws.foldl (fun s w => storeWrite s w.1 w.2) (storeWrite st w.1 w.2)) =
      applyWrites ws (storeWrite st w.1 w.2) from rfl]
    rw [ih _ (fun w2 hw2 => h w2 (List.mem_cons_of_mem _ hw2))]
    exact storeLookup_write_ne st w.1 w.2 k (fun he => h w (by simp) he.symm)

theorem applyWrites_keys_mem (W : List (String × String)) (st : Store) (k : String)
    (h : k ∈ (applyWrites W st).map Prod.fst) :
    k ∈ st.map Prod.fst ∨ ∃ w ∈ W, k = w.1 := by
  induction W generalizing st with
  | nil => exact Or.inl h
  | cons w ws ih =>
    rw [applyWrites, List.foldl_cons] at h
    rcases ih (storeWrite st w.1 w.2) (by exact h) with h2 | ⟨w2, hw2, h3⟩
    · rcases storeWrite_keys_mem st w.1 w.2 k h2 with h3 | h3
      · exact Or.inr ⟨w, by simp, h3⟩
      · exact Or.inl h3
    · exact Or.inr ⟨w2, List.mem_cons_of_mem _ hw2, h3⟩

/-! ### Lemmas about the `convert_to_txt` pass -/

theorem storeLookup_eq_none (st : Store) (k : String) :
    storeLookup st k = none ↔ k ∉ st.map Prod.fst := by
  induction st with
  | nil => simp [storeLookup]
  | cons e es ih =>
    by_cases he : e.1 = k
    · simp [storeLookup, he]
    · simp [storeLookup, he, ih, Ne.symm he]

theorem normFold_cons (n : String) (ns : List String) (st : Store) :
    normFold (n :: ns) st = normFold ns (normalizeStep st n) := by
  rw [normFold, List.foldl_cons]
  rfl

theorem normFold_lookup_guide (names : List String) (st : Store)
    (h : ∀ n ∈ names, n ≠ "structure_guide.txt" → n ++ ".txt" ≠ "structure_guide.txt") :
    storeLookup (normFold names st) "structure_guide.txt" =
      storeLookup st "structure_guide.txt" := by
  induction names generalizing st with
  | nil => rfl
  | cons n ns ih =>
    rw [normFold_cons, ih _ (fun n2 hn2 => h n2 (List.mem_cons_of_mem _ hn2))]
    by_cases hn : n = "structure_guide.txt"
    · rw [normalizeStep, if_pos hn]
    · rw [normalizeStep, if_neg hn]
      exact storeLookup_rename_ne st n (n ++ ".txt") _ (fun hh => hn hh.symm)
        (fun hh => h n (by simp) hn hh.symm)

theorem erase_filter (n : String) (rest : List String) (hne : n ≠ "structure_guide.txt") :
    ∀ (s : Store), ((s.map Prod.fst).Nodup) →
      (storeErase s n).filter (fun e => !(rest.contains e.1) || e.1 == "structure_guide.txt") =
        s.filter (fun e => !((n :: rest).contains e.1) || e.1 == "structure_guide.txt") := by
  intro s
  induction s with
  | nil => intro _; rfl
  | cons e es ih =>
    intro hnd
    have hnd2 : (e.1 :: es.map Prod.fst).Nodup := by simpa using hnd
    have hndTail : (es.map Prod.fst).Nodup := (List.nodup_cons.mp hnd2).2
    by_cases he : e.1 = n
    · rw [storeErase, if_pos he]
      have hcond : (!((n :: rest).contains e.1) || e.1 == "structure_guide.txt") = false := by
        rw [he]
        simp [List.contains_cons, hne]
      rw [List.filter_cons, hcond]
      simp only [Bool.false_eq_true, if_false]
      apply List.filter_congr
      intro e2 he2
      have hne2 : e2.1 ≠ n := by
        intro hh
        have hmem : e2.1 ∈ es.map Prod.fst := List.mem_map_of_mem _ he2
        rw [hh, ← he] at hmem
        exact (List.nodup_cons.mp hnd2).1 hmem
      simp [List.contains_cons, hne2]
    · rw [storeErase, if_neg he]
      rw [List.filter_cons, List.filter_cons]
      have hcond : (!(rest.contains e.1) || e.1 == "structure_guide.txt") =
          (!((n :: rest).contains e.1) || e.1 == "structure_guide.txt") := by
        simp [List.contains_cons, he]
      rw [hcond, ih hndTail]

theorem normFold_closed (names : List String) :
    ∀ (s : Store),
      names.Nodup →
      (s.map Prod.fst).Nodup →
      (∀ n ∈ names, n ≠ "structure_guide.txt" → ∀ m ∈ s.map Prod.fst, n ++ ".txt" ≠ m) →
      (∀ n ∈ names, n ≠ "structure_guide.txt" → n ++ ".txt" ∉ names) →
      normFold names s =
        s.filter (fun e => !(names.contains e.1) || e.1 == "structure_guide.txt") ++
          names.filterMap (fun n =>
            if n = "structure_guide.txt" then none
            else (storeLookup s n).map (fun c => (n ++ ".txt", c))) := by
  induction names with
  | nil =>
    intro s _ _ _ _
    show s = s.filter _ ++ []
    rw [List.append_nil]
    symm
    apply List.filter_eq_self.mpr
    intro e _
    rfl
  | cons n rest ih =>
    intro s h1 h2 h3 h4
    rw [normFold_cons]
    by_cases hn : n = "structure_guide.txt"
    · rw [normalizeStep, if_pos hn]
      rw [ih s (List.nodup_cons.mp h1).2 h2
        (fun n2 hn2 => h3 n2 (List.mem_cons_of_mem _ hn2))
        (fun n2 hn2 hne2 hm => h4 n2 (List.mem_cons_of_mem _ hn2) hne2 (List.mem_cons_of_mem _ hm))]
      congr 1
      · apply List.filter_congr
        intro e he
        by_cases hes : e.1 = "structure_guide.txt"
        · simp [hes]
        · have hen : e.1 ≠ n := by rw [hn]; exact hes
          simp [List.contains_cons, hen, hes]
      · rw [List.filterMap_cons]
        simp [hn]
    · rw [normalizeStep, if_neg hn]
      cases hc : storeLookup s n with
      | none =>
        rw [storeRename, hc]
        show normFold rest s = _
        rw [ih s (List.nodup_cons.mp h1).2 h2
          (fun n2 hn2 => h3 n2 (List.mem_cons_of_mem _ hn2))
          (fun n2 hn2 hne2 hm => h4 n2 (List.mem_cons_of_mem _ hn2) hne2 (List.mem_cons_of_mem _ hm))]
        congr 1
        · apply List.filter_congr
          intro e he
          have hen : e.1 ≠ n := by
            intro hh
            have hm : n ∈ s.map Prod.fst := by rw [← hh]; exact List.mem_map_of_mem _ he
            exact ((storeLookup_eq_none s n).mp hc) hm
          simp [List.contains_cons, hen]
        · rw [List.filterMap_cons]
          simp [hn, hc]
      | some c =>
        rw [storeRename, hc]
        show normFold rest (storeWrite (storeErase s n) (n ++ ".txt") c) = _
        have htxtS : (n ++ ".txt") ∉ s.map Prod.fst := by
          intro hm
          exact h3 n (by simp) hn _ hm rfl
        have htxtE : (n ++ ".txt") ∉ (storeErase s n).map Prod.fst := by
          rw [storeErase_keys]
          intro hm
          exact htxtS (List.erase_subset _ _ hm)
        rw [storeWrite_notMem _ _ _ htxtE]
        have h2e : ((storeErase s n).map Prod.fst).Nodup := by
          rw [storeErase_keys]; exact h2.erase n
        have h2x : (((storeErase s n ++ [(n ++ ".txt", c)]).map Prod.fst)).Nodup := by
          rw [List.map_append]
          refine (List.nodup_append).mpr ⟨h2e, List.nodup_singleton _, ?_⟩
          intro a ha hb
          simp at hb
          subst hb
          exact htxtE ha
        have h3x : ∀ n2 ∈ rest, n2 ≠ "structure_guide.txt" →
            ∀ m ∈ (storeErase s n ++ [(n ++ ".txt", c)]).map Prod.fst, n2 ++ ".txt" ≠ m := by
          intro n2 hn2 hne2 m hm
          rw [List.map_append] at hm
          rcases List.mem_append.mp hm with hm1 | hm2
          · rw [storeErase_keys] at hm1
            exact h3 n2 (List.mem_cons_of_mem _ hn2) hne2 m (List.erase_subset _ _ hm1)
          · simp at hm2
            subst hm2
            intro heq
            have hnn : n2 = n := strCancelRight n2 n ".txt" heq
            subst hnn
            exact (List.nodup_cons.mp h1).1 hn2
        rw [ih _ (List.nodup_cons.mp h1).2 h2x h3x
          (fun n2 hn2 hne2 hm => h4 n2 (List.mem_cons_of_mem _ hn2) hne2 (List.mem_cons_of_mem _ hm))]
        rw [List.filter_append]
        have hnr : (n ++ ".txt") ∉ rest :=
          fun hm => h4 n (by simp) hn (List.mem_cons_of_mem _ hm)
        have hsingle : ([(n ++ ".txt", c)].filter
            (fun e => !(rest.contains e.1) || e.1 == "structure_guide.txt")) =
            [(n ++ ".txt", c)] := by
          simp [hnr]
        rw [hsingle]
        have hFM : rest.filterMap (fun n2 =>
            if n2 = "structure_guide.txt" then none
            else (storeLookup (storeErase s n ++ [(n ++ ".txt", c)]) n2).map
              (fun c2 => (n2 ++ ".txt", c2))) =
          rest.filterMap (fun n2 =>
            if n2 = "structure_guide.txt" then none
            else (storeLookup s n2).map (fun c2 => (n2 ++ ".txt", c2))) := by
          apply List.filterMap_congr
          intro n2 hn2
          by_cases hne2 : n2 = "structure_guide.txt"
          · simp [hne2]
          · have hn2n : n2 ≠ n := by
              intro hh; subst hh; exact (List.nodup_cons.mp h1).1 hn2
            have hn2t : n2 ≠ n ++ ".txt" := by
              intro hh
              apply h4 n (by simp) hn
              rw [← hh]
              exact List.mem_cons_of_mem _ hn2
            rw [if_neg hne2, if_neg hne2]
            rw [storeLookup_append_ne _ _ _ _ hn2t, storeLookup_erase_ne _ _ _ hn2n]
        rw [hFM]
        rw [erase_filter n rest hn s h2]
        rw [List.filterMap_cons]
        simp only [if_neg hn, hc, Option.map_some]
        simp [List.append_assoc]

theorem keys_filterMap_rename (st : Store) (hnd : (st.map Prod.fst).Nodup) :
    (st.map Prod.fst).filterMap (fun n =>
      if n = "structure_guide.txt" then none
      else (storeLookup st n).map (fun c => (n ++ ".txt", c))) =
    (st.filter (fun e => !(e.1 == "structure_guide.txt"))).map
      (fun e => (e.1 ++ ".txt", e.2)) := by
  induction st with
  | nil => rfl
  | cons e es ih =>
    have hnd2 : (e.1 :: es.map Prod.fst).Nodup := by simpa using hnd
    have hhead : e.1 ∉ es.map Prod.fst := (List.nodup_cons.mp hnd2).1
    have hcongr : (es.map Prod.fst).filterMap (fun n =>
        if n = "structure_guide.txt" then none
        else (storeLookup (e :: es) n).map (fun c => (n ++ ".txt", c))) =
      (es.map Prod.fst).filterMap (fun n =>
        if n = "structure_guide.txt" then none
        else (storeLookup es n).map (fun c => (n ++ ".txt", c))) := by
      apply List.filterMap_congr
      intro n2 hn2
      have hne : ¬ e.1 = n2 := fun hh => hhead (hh ▸ hn2)
      simp only [storeLookup, if_neg hne]
    rw [List.map_cons, List.filterMap_cons]
    by_cases hes : e.1 = "structure_guide.txt"
    · rw [if_pos hes, hcongr, ih (List.nodup_cons.mp hnd2).2]
      rw [List.filter_cons]
      simp [hes]
    · rw [if_neg hes]
      have hlook : storeLookup (e :: es) e.1 = some e.2 := by
        simp [storeLookup]
      rw [hlook, hcongr, ih (List.nodup_cons.mp hnd2).2]
      rw [List.filter_cons]
      simp [hes]

theorem normalizeStore_closed (st : Store)
    (hnd : (st.map Prod.fst).Nodup)
    (hcol : ∀ n ∈ st.map Prod.fst, n ≠ "structure_guide.txt" →
        ∀ m ∈ st.map Prod.fst, n ++ ".txt" ≠ m) :
    normalizeStore st =
      st.filter (fun e => e.1 == "structure_guide.txt") ++
        (st.filter (fun e => !(e.1 == "structure_guide.txt"))).map
          (fun e => (e.1 ++ ".txt", e.2)) := by
  rw [normalizeStore]
  rw [normFold_closed (st.map Prod.fst) st hnd hnd hcol
    (fun n hn hne hm => hcol n hn hne _ hm rfl)]
  congr 1
  · apply List.filter_congr
    intro e he
    have hm : e.1 ∈ st.map Prod.fst := List.mem_map_of_mem _ he
    simp [hm]
  · exact keys_filterMap_rename st hnd

/-! ### Lemmas about the structure guide -/

theorem strData_append (a b : String) : (a ++ b).data = a.data ++ b.data := rfl

theorem countSep_append (a b : String) : countSep (a ++ b) = countSep a + countSep b := by
  rw [countSep, countSep, countSep, strData_append, List.count_append]

theorem countSep_noSlash (s : String) (h : noSlash s = true) : countSep s = 0 := by
  rw [countSep]
  apply List.count_eq_zero.mpr
  intro hm
  simp [noSlash] at h
  exact h hm

theorem validDirName_noSlash (s : String) (h : validDirName s = true) : noSlash s = true := by
  simp [validDirName] at h
  exact h.1

theorem validDirName_ne_dot (s : String) (h : validDirName s = true) : s ≠ "." := by
  simp [validDirName] at h
  exact h.2

theorem countSep_relPathStr (rest : List String) :
    ∀ (s : String), (∀ x ∈ s :: rest, noSlash x = true) →
      countSep (relPathStr (s :: rest)) = rest.length := by
  induction rest with
  | nil =>
    intro s h
    rw [relPathStr]
    exact countSep_noSlash s (h s (by simp))
  | cons r rs ih =>
    intro s h
    rw [relPathStr, countSep_append, countSep_append]
    rw [countSep_noSlash s (h s (by simp))]
    rw [ih r (fun x hx => h x (List.mem_cons_of_mem _ hx))]
    rw [show countSep "/" = 1 from rfl, List.length_cons]
    · omega
    · simp

theorem relPathStr_ne_dot (s : String) (rest : List String)
    (h : ∀ x ∈ s :: rest, validDirName x = true) : relPathStr (s :: rest) ≠ "." := by
  cases rest with
  | nil =>
    rw [relPathStr]
    exact validDirName_ne_dot s (h s (by simp))
  | cons r rs =>
    intro heq
    have hc := congrArg countSep heq
    rw [countSep_relPathStr (r :: rs) s
      (fun x hx => validDirName_noSlash x (h x hx))] at hc
    simp [countSep] at hc

theorem dirLevel_eq_length (segs : List String)
    (h : ∀ s ∈ segs, validDirName s = true) : dirLevel segs = segs.length := by
  cases segs with
  | nil => rfl
  | cons s rest =>
    rw [dirLevel, if_neg (relPathStr_ne_dot s rest h)]
    rw [countSep_relPathStr rest s (fun x hx => validDirName_noSlash x (h x hx))]
    rfl

theorem indentStr_eq_fourSpaces (n : Nat) : indentStr n = fourSpaces n := strRepeat_spaces n

theorem dirsValidList_mem (l : List FSTree) (h : dirsValidList l = true) (c : FSTree)
    (hc : c ∈ l) : validDirName c.name = true ∧ dirsValid c = true := by
  induction l with
  | nil => simp at hc
  | cons c2 cs ih =>
    rw [dirsValidList] at h
    simp only [Bool.and_eq_true] at h
    rcases List.mem_cons.mp hc with rfl | hc2
    · exact ⟨h.1.1, h.1.2⟩
    · exact ih h.2 hc2

theorem osWalkList_segs_valid (P : List String) (l : List FSTree) (pre : List String)
    (v : DirVisit)
    (ih : ∀ c ∈ l, ∀ (pre2 : List String) (v2 : DirVisit), dirsValid c = true →
      (∀ s ∈ pre2, validDirName s = true) → v2 ∈ osWalk P pre2 c →
      ∀ s ∈ v2.segs, validDirName s = true)
    (hl : dirsValidList l = true)
    (hpre : ∀ s ∈ pre, validDirName s = true)
    (hv : v ∈ osWalkList P pre l) :
    ∀ s ∈ v.segs, validDirName s = true := by
  induction l with
  | nil => simp [osWalkList] at hv
  | cons c cs ihl =>
    rw [dirsValidList] at hl
    simp only [Bool.and_eq_true] at hl
    rw [osWalkList] at hv
    rcases List.mem_append.mp hv with h1 | h2
    · by_cases hk : keepDir P c.name = true
      · rw [if_pos hk] at h1
        refine ih c (by simp) (pre ++ [c.name]) v hl.1.2 ?_ h1
        intro s hs
        rcases List.mem_append.mp hs with hs1 | hs2
        · exact hpre s hs1
        · have : s = c.name := by simpa using hs2
          rw [this]
          exact hl.1.1
      · rw [if_neg hk] at h1
        simp at h1
    · exact ihl (fun c2 hc2 => ih c2 (by simp [hc2])) hl.2 h2

theorem osWalk_segs_valid (P : List String) (t : FSTree) :
    ∀ (pre : List String) (v : DirVisit), dirsValid t = true →
      (∀ s ∈ pre, validDirName s = true) → v ∈ osWalk P pre t →
      ∀ s ∈ v.segs, validDirName s = true := by
  induction t using FSTree.myInduction with
  | h dname subdirs files ih =>
    intro pre v ht hpre hv
    rw [osWalk] at hv
    rcases List.mem_cons.mp hv with h1 | h2
    · intro s hs
      rw [h1] at hs
      exact hpre s hs
    · exact osWalkList_segs_valid P subdirs pre v
        (fun c hc => ih c hc) (by rw [dirsValid] at ht; exact ht) hpre h2

theorem flatMapCongr {α β : Type} (l : List α) (f g : α → List β)
    (h : ∀ a ∈ l, f a = g a) : l.flatMap f = l.flatMap g := by
  rw [List.flatMap_def, List.flatMap_def, List.map_congr_left h]

/-! ### Claim theorems -/

theorem keepDir_git (P : List String) : keepDir P ".git" = false := by
  simp [keepDir]

theorem keepDir_takeout (P : List String) : keepDir P ".takeout" = false := by
  simp [keepDir]

/-- C1: for every directory named `.git` or `.takeout` at any depth under
`root_dir`, the walk prunes it regardless of the ignore-pattern set: no
visited directory of either walk (hence no directory line or file line of
the structure guide) lies at or below such a directory, and no source path
recorded in the `file_paths` index (hence nothing that gets copied) lies
below such a directory. -/
theorem claim1_git_takeout_pruned (P : List String) (t : FSTree) :
    (∀ v ∈ osWalk P [] t, ".git" ∉ v.segs ∧ ".takeout" ∉ v.segs) ∧
    (∀ g ∈ buildFileIndex P t, ∀ p ∈ g.2, ".git" ∉ p.1 ∧ ".takeout" ∉ p.1) := by
  have hvisit : ∀ v ∈ osWalk P [] t, ".git" ∉ v.segs ∧ ".takeout" ∉ v.segs := by
    intro v hv
    obtain ⟨ext, hseg, hall⟩ := osWalk_mem_segs P t [] v hv
    rw [hseg]
    simp only [List.nil_append]
    constructor
    · intro hm
      have := hall _ hm
      rw [keepDir_git] at this
      exact Bool.false_ne_true this
    · intro hm
      have := hall _ hm
      rw [keepDir_takeout] at this
      exact Bool.false_ne_true this
  refine ⟨hvisit, ?_⟩
  intro g hg p hp
  obtain ⟨v, hv, hseg⟩ := buildFileIndex_path P t g p hg hp
  rw [hseg]
  exact hvisit v hv

/-- C1 witness: a concrete tree with an ordinary subdirectory next to a
`.git` directory; the visit of the ordinary subdirectory is in the walk and
its path avoids `.git` and `.takeout`. -/
theorem claim1_witness :
    ((⟨["a"], "a", [⟨"f", "c"⟩]⟩ : DirVisit) ∈
      osWalk ["n/"] [] (.node "r" [.node "a" [] [⟨"f", "c"⟩], .node ".git" [] [⟨"h", "x"⟩]] [])) ∧
    (".git" ∉ (["a"] : List String) ∧ ".takeout" ∉ (["a"] : List String)) :=
  ⟨by decide,
    (claim1_git_takeout_pruned ["n/"]
      (.node "r" [.node "a" [] [⟨"f", "c"⟩], .node ".git" [] [⟨"h", "x"⟩]] [])).1
      ⟨["a"], "a", [⟨"f", "c"⟩]⟩ (by decide)⟩

theorem isIgnoredFile_of_mem (P : List String) (f : String) (h : f ∈ P) :
    isIgnoredFile P f = true := by
  simp [isIgnoredFile]
  exact Or.inl h

theorem isIgnoredFile_of_wildcard (P : List String) (f p : String) (hp : p ∈ P)
    (h1 : strStartsWith p "*." = true) (h2 : strEndsWith f (strDrop1 p) = true) :
    isIgnoredFile P f = true := by
  simp [isIgnoredFile]
  exact Or.inr ⟨p, hp, h1, h2⟩

theorem guideKeep_eq_not_ignored (P : List String) (f : String) :
    guideKeep P f = !(isIgnoredFile P f) := by
  rw [guideKeep, isIgnoredFile, Bool.not_or]

/-- C2: a file whose name equals a non-wildcard pattern of the set, or whose
name ends in `.ext` for a `*.ext` pattern of the set, never becomes a key of
the `file_paths` index (so it is neither copied nor counted), and never
appears among the file lines any directory contributes to the structure
guide. -/
theorem claim2_ignored_files_excluded (P : List String) (t : FSTree) (fname : String)
    (h : (∃ p ∈ P, strStartsWith p "*." = false ∧ fname = p) ∨
         (∃ p ∈ P, strStartsWith p "*." = true ∧ strEndsWith fname (strDrop1 p) = true)) :
    (∀ g ∈ buildFileIndex P t, g.1 ≠ fname) ∧
    (∀ files : List Entry, fname ∉ guideSurviving P files) := by
  have hig : isIgnoredFile P fname = true := by
    rcases h with ⟨p, hp, _, rfl⟩ | ⟨p, hp, h1, h2⟩
    · exact isIgnoredFile_of_mem P fname hp
    · exact isIgnoredFile_of_wildcard P fname p hp h1 h2
  constructor
  · intro g hg heq
    have := buildFileIndex_key P t g hg
    rw [heq, hig] at this
    simp at this
  · intro files hm
    rw [guideSurviving] at hm
    have := List.of_mem_filter hm
    rw [guideKeep_eq_not_ignored, hig] at this
    simp at this

/-- C2 witness: with the ignore set `{x.txt}`, the file name `x.txt` is not
a key of the index of a tree containing it, and is dropped from a
directory's guide file lines. -/
theorem claim2_witness :
    ((∃ p ∈ ["x.txt"], strStartsWith p "*." = false ∧ "x.txt" = p) ∨
      (∃ p ∈ ["x.txt"], strStartsWith p "*." = true ∧
        strEndsWith "x.txt" (strDrop1 p) = true)) ∧
    "x.txt" ∉ guideSurviving ["x.txt"] [⟨"x.txt", "c"⟩, ⟨"y.txt", "d"⟩] :=
  ⟨Or.inl ⟨"x.txt", by decide, by decide, rfl⟩,
    (claim2_ignored_files_excluded ["x.txt"] (.node "r" [] [⟨"x.txt", "c"⟩]) "x.txt"
      (Or.inl ⟨"x.txt", by decide, by decide, rfl⟩)).2 [⟨"x.txt", "c"⟩, ⟨"y.txt", "d"⟩]⟩

/-- C3: the copy loop performs, in index order, exactly the writes described
in section 4.4 — a single-source group under its base name, a collision
group under the synthesized path-derived unique names (`copyWritesOf`) —
and `copied_files_count` counts them; every collision-group member is
written under `uniqueName`; and in the concrete two-collision scenario
(`a/x.txt`, `b/x.txt`) the takeout directory holds exactly
`structure_guide.txt`, `a_x.txt` and `b_x.txt` and no file named `x.txt`. -/
theorem claim3_collision_naming :
    (∀ (idx : List (String × List SrcPath)) (st : Store),
        copyFiles idx st =
          (applyWrites (idx.flatMap copyWritesOf) st, (idx.flatMap copyWritesOf).length)) ∧
    (∀ (g : String × List SrcPath) (p : SrcPath), p ∈ g.2 → g.2.length ≠ 1 →
        (uniqueName p.1 g.1, p.2) ∈ copyWritesOf g) ∧
    ((create_takeout []
        (.node "root" [.node "a" [] [⟨"x.txt", "ca"⟩], .node "b" [] [⟨"x.txt", "cb"⟩]] [])
        false []).1.map Prod.fst =
      ["structure_guide.txt", "a_x.txt", "b_x.txt"]) := by
  refine ⟨copyFiles_eq_writes, ?_, by decide⟩
  intro g p hp hlen
  rcases g with ⟨k, ps⟩
  match ps, hp, hlen with
  | [p0], hp, hlen => simp at hlen
  | p1 :: p2 :: rest, hp, hlen =>
    show (uniqueName p.1 k, p.2) ∈ (p1 :: p2 :: rest).map (fun q => (uniqueName q.1 k, q.2))
    exact List.mem_map_of_mem _ hp

/-- C3 witness: the first element of the two-path collision group for
`x.txt` appears among the group's writes under its synthesized name. -/
theorem claim3_witness :
    ((["a"], "ca") ∈ [((["a"], "ca") : SrcPath), (["b"], "cb")] ∧
      ([((["a"], "ca") : SrcPath), (["b"], "cb")].length ≠ 1)) ∧
    (uniqueName ["a"] "x.txt", "ca") ∈
      copyWritesOf ("x.txt", [(["a"], "ca"), (["b"], "cb")]) :=
  ⟨⟨by decide, by decide⟩,
    claim3_collision_naming.2.1 ("x.txt", [(["a"], "ca"), (["b"], "cb")]) (["a"], "ca")
      (by decide) (by decide)⟩

/-- C4 counterexample: with the takeout directory holding `a` and `a.txt`
(in that `os.listdir` order), the pass first renames `a` onto `a.txt`,
silently replacing it, and then renames that entry again to `a.txt.txt`;
the entry that was named `a` does not end up under `a.txt`, so the claim's
universal rename description fails. -/
theorem claim4_cex :
    (("a", "c1") ∈ ([("a", "c1"), ("a.txt", "c2")] : Store)) ∧
    ("a" : String) ≠ "structure_guide.txt" ∧
    ("a" ++ ".txt") ∉ (normalizeStore [("a", "c1"), ("a.txt", "c2")]).map Prod.fst ∧
    normalizeStore [("a", "c1"), ("a.txt", "c2")] = [("a.txt.txt", "c1")] := by decide

/-- C4 amended: when `convert_to_txt` is true and no pre-normalization entry
name with `.txt` appended equals any other pre-normalization entry name,
the pass leaves exactly the `structure_guide.txt` entry unchanged and
renames every other entry to its pre-normalization name with `.txt`
appended (not substituted), keeping its content. -/
theorem claim4_every_entry_suffixed (st : Store)
    (hnd : (st.map Prod.fst).Nodup)
    (hcol : ∀ n ∈ st.map Prod.fst, n ≠ "structure_guide.txt" →
        ∀ m ∈ st.map Prod.fst, n ++ ".txt" ≠ m) :
    normalizeStore st =
      st.filter (fun e => e.1 == "structure_guide.txt") ++
        (st.filter (fun e => !(e.1 == "structure_guide.txt"))).map
          (fun e => (e.1 ++ ".txt", e.2)) :=
  normalizeStore_closed st hnd hcol

/-- C4 witness: a two-entry directory with the guide and `readme.md`;
normalization keeps the guide and renames `readme.md` to `readme.md.txt`. -/
theorem claim4_witness :
    (([("structure_guide.txt", "G"), ("readme.md", "R")].map Prod.fst).Nodup ∧
      (∀ n ∈ [("structure_guide.txt", "G"), ("readme.md", "R")].map Prod.fst,
        n ≠ "structure_guide.txt" →
        ∀ m ∈ [("structure_guide.txt", "G"), ("readme.md", "R")].map Prod.fst,
          n ++ ".txt" ≠ m)) ∧
    normalizeStore [("structure_guide.txt", "G"), ("readme.md", "R")] =
      [("structure_guide.txt", "G"), ("readme.md", "R")].filter
          (fun e => e.1 == "structure_guide.txt") ++
        ([("structure_guide.txt", "G"), ("readme.md", "R")].filter
            (fun e => !(e.1 == "structure_guide.txt"))).map
          (fun e => (e.1 ++ ".txt", e.2)) :=
  ⟨⟨by decide, by decide⟩,
    claim4_every_entry_suffixed [("structure_guide.txt", "G"), ("readme.md", "R")]
      (by decide) (by decide)⟩

/-- C5: for a tree whose directory names are plausible (no separator, not
`.`), the guide is exactly: a title line naming the root's base name, a
blank line, then for every visited directory a line `<indent><dirname>/`
whose indent is four spaces per depth level (root depth 0), followed by one
line per surviving file sorted lexicographically, indented one level
deeper. -/
theorem claim5_guide_layout (P : List String) (t : FSTree) (h : dirsValid t = true) :
    guideLines P t = guideLinesSpec P t := by
  rw [guideLines, guideLinesSpec]
  congr 1
  congr 1
  apply flatMapCongr
  intro v hv
  have hvalid : ∀ s ∈ v.segs, validDirName s = true :=
    osWalk_segs_valid P t [] v h (by simp) hv
  rw [guideDirLines, dirLevel_eq_length v.segs hvalid,
    indentStr_eq_fourSpaces, indentStr_eq_fourSpaces]

/-- C5 witness: the spec's own scenario tree (section 8). -/
theorem claim5_witness :
    dirsValid (FSTree.node "proj" [.node "src" [] [⟨"main.go", "M"⟩, ⟨"util.go", "U"⟩]]
      [⟨"README.md", "R"⟩, ⟨".takeoutignore", "*.md"⟩]) = true ∧
    guideLines ["*.md"]
        (FSTree.node "proj" [.node "src" [] [⟨"main.go", "M"⟩, ⟨"util.go", "U"⟩]]
          [⟨"README.md", "R"⟩, ⟨".takeoutignore", "*.md"⟩]) =
      guideLinesSpec ["*.md"]
        (FSTree.node "proj" [.node "src" [] [⟨"main.go", "M"⟩, ⟨"util.go", "U"⟩]]
          [⟨"README.md", "R"⟩, ⟨".takeoutignore", "*.md"⟩]) :=
  ⟨by decide,
    claim5_guide_layout ["*.md"]
      (FSTree.node "proj" [.node "src" [] [⟨"main.go", "M"⟩, ⟨"util.go", "U"⟩]]
        [⟨"README.md", "R"⟩, ⟨".takeoutignore", "*.md"⟩]) (by decide)⟩

/-- C6: the ignore-pattern loader returns the empty set, with nothing
logged and without any error escaping, when the ignore file is absent; and
on any other read failure it logs the failure and still returns the empty
set, so the run continues (the loader's result type has no error case at
all). -/
theorem claim6_loader_failures :
    get_ignored_patterns .absent = ([], []) ∧
    (∀ e, get_ignored_patterns (.readError e) =
      ([], ["Error reading .takeoutignore file: " ++ e])) :=
  ⟨rfl, fun _ => rfl⟩

/-- C7 counterexample: the raw line `" #x"` trims to `#x`, which starts
with `#` after trimming; the claim says such a line contributes no pattern,
but the loader keeps it (the code applies `startswith('#')` to the raw,
untrimmed line), contributing the pattern `#x`. -/
theorem claim7_cex :
    strStartsWith (trimChars " #x") "#" = true ∧
    trimChars " #x" ∈ parsePatterns [" #x"] := by decide

/-- C7 amended: a pattern is in the loaded set exactly when some line of the
file trims to it, is nonempty after trimming, and does not start with `#`
before trimming (the `#` test is on the raw line, not the trimmed one);
every such line contributes exactly its trimmed text. -/
theorem claim7_trimming_and_comments (lines : List String) (p : String) :
    p ∈ parsePatterns lines ↔
      ∃ line ∈ lines, trimChars line = p ∧ trimChars line ≠ "" ∧
        strStartsWith line "#" = false := by
  rw [parsePatterns]
  constructor
  · intro hm
    obtain ⟨line, hline, heq⟩ := List.mem_map.mp hm
    have h2 := List.of_mem_filter hline
    rw [patternLineKept] at h2
    simp only [Bool.and_eq_true, Bool.not_eq_true'] at h2
    refine ⟨line, List.mem_of_mem_filter hline, heq, ?_, h2.2⟩
    intro hb
    rw [hb] at h2
    simp at h2
  · rintro ⟨line, hline, heq, hne, hsw⟩
    apply List.mem_map.mpr
    refine ⟨line, List.mem_filter.mpr ⟨hline, ?_⟩, heq⟩
    rw [patternLineKept]
    simp [hsw, hne]

/-- C8: for a collision-group file located directly in `root_dir` (empty
relative directory, `os.path.relpath` giving `.`), the synthesized name is
deterministic: the current-directory marker joined to the base name with
the separator turned into an underscore, i.e. `._<basename>`. -/
theorem claim8_root_collision_name (filename : String) (h : noSlash filename = true) :
    uniqueName [] filename = "._" ++ filename := by
  rw [uniqueName]
  rw [show relPathStr [] = "." from rfl]
  rw [show ("." ++ "/" : String) = "./" from rfl]
  rw [replaceSep_append, replaceSep_noSlash filename h]
  rfl

/-- C8 witness: a top-level collision file `x.txt` is written as `._x.txt`. -/
theorem claim8_witness :
    noSlash "x.txt" = true ∧ uniqueName [] "x.txt" = "._" ++ "x.txt" :=
  ⟨by decide, claim8_root_collision_name "x.txt" (by decide)⟩

/-- C9: a deletion task is started exactly when `delete_timer > 0`; when no
task is started the success message is reported unchanged (and, as the
shape of `scheduleNote` shows, the message is computed without consulting
the deletion task at all); and the detached task catches any `rmtree`
failure, returning its printed lines — including the error line — instead
of propagating (its result type has no error case). -/
theorem claim9_deferred_deletion (takeout_dir : String) (d : ℚ) :
    ((scheduleNote takeout_dir d).2 = true ↔ 0 < d) ∧
    (¬ 0 < d → scheduleNote takeout_dir d =
      ("Project takeout created successfully in:\n" ++ takeout_dir, false)) ∧
    (∀ (path e : String) (ex : Bool),
      _delete_folder_after_delay path d ex (.error e) =
        if ex then
          ["Scheduled deletion of '" ++ path ++ "' in " ++ toString d ++ " seconds.",
           "Error during scheduled deletion of '" ++ path ++ "': " ++ e]
        else
          ["Scheduled deletion of '" ++ path ++ "' in " ++ toString d ++ " seconds."]) := by
  refine ⟨?_, ?_, ?_⟩
  · rw [scheduleNote]
    by_cases hd : d > 0
    · simp [hd]
    · simp [hd]
  · intro hd
    rw [scheduleNote]
    simp [hd]
  · intro path e ex
    cases ex <;> simp [_delete_folder_after_delay]

/-- C9 witness: with a zero timer no task is scheduled and the success
message is reported unchanged. -/
theorem claim9_witness :
    (¬ (0 : ℚ) < 0) ∧
    scheduleNote "T" 0 = ("Project takeout created successfully in:\nT", false) :=
  ⟨by decide, (claim9_deferred_deletion "T" 0).2.1 (by decide)⟩

/-! ### Lemmas for the guide-overwrite scenario -/

theorem applyWrites_append (W1 W2 : List (String × String)) (st : Store) :
    applyWrites (W1 ++ W2) st = applyWrites W2 (applyWrites W1 st) :=
  List.foldl_append ..

theorem assoc_unique (l : List (String × List SrcPath)) (k : String) (ps : List SrcPath)
    (g : String × List SrcPath) (h1 : (k, ps) ∈ l) (h2 : g ∈ l) (h3 : g.1 = k)
    (hnd : (l.map Prod.fst).Nodup) : g = (k, ps) := by
  induction l with
  | nil => simp at h1
  | cons x xs ih =>
    have hnd2 : (x.1 :: xs.map Prod.fst).Nodup := by simpa using hnd
    rcases List.mem_cons.mp h1 with hx1 | hx1
    · rcases List.mem_cons.mp h2 with hx2 | hx2
      · rw [hx2]
        exact hx1.symm
      · exfalso
        have hk : x.1 = k := by rw [← hx1]
        have hmem : x.1 ∈ xs.map Prod.fst := by
          rw [hk, ← h3]
          exact List.mem_map_of_mem _ hx2
        exact (List.nodup_cons.mp hnd2).1 hmem
    · rcases List.mem_cons.mp h2 with hx2 | hx2
      · exfalso
        have hk : x.1 = k := by rw [← hx2]; exact h3
        have hmem : x.1 ∈ xs.map Prod.fst := by
          rw [hk]
          exact List.mem_map_of_mem Prod.fst hx1
        exact (List.nodup_cons.mp hnd2).1 hmem
      · exact ih hx1 hx2 (List.nodup_cons.mp hnd2).2

theorem copyFiles_lookup_single (idx : List (String × List SrcPath)) (st : Store)
    (k : String) (p : SrcPath)
    (hmem : (k, [p]) ∈ idx)
    (hnd : (idx.map Prod.fst).Nodup)
    (havoid : ∀ g ∈ idx, g.1 ≠ k → ∀ w ∈ copyWritesOf g, w.1 ≠ k) :
    storeLookup (copyFiles idx st).1 k = some p.2 := by
  obtain ⟨l1, l2, hsplit⟩ := List.append_of_mem hmem
  subst hsplit
  rw [copyFiles_eq_writes]
  have hW : (l1 ++ (k, [p]) :: l2).flatMap copyWritesOf
      = l1.flatMap copyWritesOf ++ ([(k, p.2)] ++ l2.flatMap copyWritesOf) := by
    rw [List.flatMap_append, List.flatMap_cons]
    rfl
  rw [hW, applyWrites_append, applyWrites_append]
  have hndKeys : ((l1 ++ (k, [p]) :: l2).map Prod.fst).Nodup := hnd
  rw [List.map_append, List.map_cons] at hndKeys
  have hmid := (List.nodup_append.mp hndKeys).2.1
  have hW2 : ∀ w ∈ l2.flatMap copyWritesOf, w.1 ≠ k := by
    intro w hw
    obtain ⟨g, hg, hwg⟩ := List.mem_flatMap.mp hw
    have hgk : g.1 ≠ k := by
      intro hh
      apply (List.nodup_cons.mp hmid).1
      rw [← hh]
      exact List.mem_map.mpr ⟨g, hg, rfl⟩
    exact havoid g (by simp [hg]) hgk w hwg
  rw [applyWrites_lookup_ne _ _ _ hW2]
  rw [show applyWrites [(k, p.2)] (applyWrites (l1.flatMap copyWritesOf) st)
    = storeWrite (applyWrites (l1.flatMap copyWritesOf) st) k p.2 from rfl]
  exact storeLookup_write_self ..

/-- C10 counterexample: a tree with exactly one non-ignored source file
named `structure_guide.txt` (content `SRC`) and a two-way collision on
`guide.txt` with one copy in a directory named `structure`; the collision
group's synthesized name `structure_guide.txt` overwrites the copied
source file, so the final `structure_guide.txt` holds `GS`, not `SRC`. -/
theorem claim10_cex :
    buildFileIndex []
        (.node "r" [.node "s1" [] [⟨"structure_guide.txt", "SRC"⟩],
          .node "a" [] [⟨"guide.txt", "GA"⟩],
          .node "structure" [] [⟨"guide.txt", "GS"⟩]] []) =
      [("structure_guide.txt", [(["s1"], "SRC")]),
        ("guide.txt", [(["a"], "GA"), (["structure"], "GS")])] ∧
    storeLookup
        (create_takeout []
          (.node "r" [.node "s1" [] [⟨"structure_guide.txt", "SRC"⟩],
            .node "a" [] [⟨"guide.txt", "GA"⟩],
            .node "structure" [] [⟨"guide.txt", "GS"⟩]] [])
          false []).1 "structure_guide.txt" = some "GS" := by decide

/-- C10 amended: if the index holds exactly one source for the name
`structure_guide.txt` and no other group's write — original base name or
synthesized unique name — targets `structure_guide.txt` (nor the name
`structure_guide`, which the `.txt` pass would rename onto the guide),
then the copy pass, which runs after the guide is written, overwrites the
generated guide with that source file's content, and the extension pass
leaves that entry alone, so the final `structure_guide.txt` holds the
source file's content, for either value of `convert_to_txt`. -/
theorem claim10_source_guide_overwrites (P : List String) (t : FSTree) (p : SrcPath)
    (convert : Bool)
    (h1 : ("structure_guide.txt", [p]) ∈ buildFileIndex P t)
    (h2 : ∀ g ∈ buildFileIndex P t, g.1 ≠ "structure_guide.txt" →
        ∀ w ∈ copyWritesOf g, w.1 ≠ "structure_guide.txt" ∧
          w.1 ++ ".txt" ≠ "structure_guide.txt") :
    storeLookup (create_takeout P t convert []).1 "structure_guide.txt" = some p.2 := by
  have hnd := buildFileIndex_keys_nodup P t
  have hlook : storeLookup
      (copyFiles (buildFileIndex P t)
        (storeWrite [] "structure_guide.txt" (unlines (guideLines P t)))).1
      "structure_guide.txt" = some p.2 :=
    copyFiles_lookup_single (buildFileIndex P t) _ _ p h1 hnd
      (fun g hg hne w hw => (h2 g hg hne w hw).1)
  rw [create_takeout]
  cases convert with
  | false =>
    simpa using hlook
  | true =>
    simp only [if_true]
    have hkeys : ∀ n ∈ ((copyFiles (buildFileIndex P t)
        (storeWrite [] "structure_guide.txt" (unlines (guideLines P t)))).1.map Prod.fst),
        n ≠ "structure_guide.txt" → n ++ ".txt" ≠ "structure_guide.txt" := by
      intro n hn hne
      rw [copyFiles_eq_writes] at hn
      rcases applyWrites_keys_mem _ _ _ hn with hs | ⟨w, hw, hwn⟩
      · exfalso
        apply hne
        simpa [storeWrite] using hs
      · obtain ⟨g, hg, hwg⟩ := List.mem_flatMap.mp hw
        by_cases hgk : g.1 = "structure_guide.txt"
        · exfalso
          have hgeq := assoc_unique _ _ _ g h1 hg hgk hnd
          rw [hgeq] at hwg
          have : w = ("structure_guide.txt", p.2) := by simpa [copyWritesOf] using hwg
          rw [this] at hwn
          exact hne hwn
        · rw [hwn]
          exact (h2 g hg hgk w hwg).2
    show storeLookup (normalizeStore _) _ = _
    rw [normalizeStore]
    rw [normFold_lookup_guide _ _ hkeys]
    exact hlook

/-- C10 witness: a tree whose only collision-free files are `s1`'s
`structure_guide.txt` and an unrelated `readme.md`; the final guide entry
holds the source file's content. -/
theorem claim10_witness :
    (("structure_guide.txt", [((["s1"], "SRC") : SrcPath)]) ∈
      buildFileIndex []
        (.node "r" [.node "s1" [] [⟨"structure_guide.txt", "SRC"⟩]] [⟨"readme.md", "R"⟩])) ∧
    storeLookup
        (create_takeout []
          (.node "r" [.node "s1" [] [⟨"structure_guide.txt", "SRC"⟩]] [⟨"readme.md", "R"⟩])
          true []).1 "structure_guide.txt" = some "SRC" :=
  ⟨by decide,
    claim10_source_guide_overwrites []
      (.node "r" [.node "s1" [] [⟨"structure_guide.txt", "SRC"⟩]] [⟨"readme.md", "R"⟩])
      (["s1"], "SRC") true (by decide) (by decide)⟩
